import Mathlib

/-!
Verification of the RAG text-preparation scripts of the sakhee repository.

The development shallowly embeds the two core transforms:

* `split_ingredient_substitutes.py`: `parse_sections` (single-pass section
  scanner) and `create_file_content` (category assembler), together with the
  `SECTION_MAPPING` configuration.
* `restructure_supplements.py`: the chain of seven `re.sub` rewrites performed
  by `restructure_supplement_file` on the file content.

Python strings are modelled as Lean `String`/`List Char`; `content.split('\n')`
and `'\n'.join(...)` are modelled by structurally recursive functions so that
all definitions evaluate inside the kernel.
-/

set_option maxRecDepth 8192

namespace Sakhee

/-- Whitespace as recognized by Python's `str.strip()` and the regex class
`\s` on `str` patterns (ASCII whitespace plus the Unicode space characters). -/
def isPyWs (c : Char) : Bool :=
  c == ' ' || c == '\t' || c == '\n' || c == '\r' || c == '\x0b' || c == '\x0c' ||
  c == '\x1c' || c == '\x1d' || c == '\x1e' || c == '\x1f' || c == '\u0085' ||
  c == '\u00a0' || c == '\u1680' || c == '\u2000' || c == '\u2001' || c == '\u2002' ||
  c == '\u2003' || c == '\u2004' || c == '\u2005' || c == '\u2006' || c == '\u2007' ||
  c == '\u2008' || c == '\u2009' || c == '\u200a' || c == '\u2028' || c == '\u2029' ||
  c == '\u202f' || c == '\u205f' || c == '\u3000'

/-- Python `s.strip()`: remove leading and trailing whitespace. -/
def pyStrip (s : String) : String :=
  ⟨((s.data.dropWhile fun c => isPyWs c).reverse.dropWhile fun c => isPyWs c).reverse⟩

/-- Python `content.split('\n')`, auxiliary: `acc` holds the current field,
reversed. -/
def splitNlAux : List Char → List Char → List String
  | [], acc => [⟨acc.reverse⟩]
  | c :: cs, acc =>
    if c == '\n' then ⟨acc.reverse⟩ :: splitNlAux cs [] else splitNlAux cs (c :: acc)

/-- Python `content.split('\n')`. -/
def splitNl (s : String) : List String := splitNlAux s.data []

/-- Python `'\n'.join(lines)`. -/
def joinNl : List String → String
  | [] => ""
  | [s] => s
  | s :: rest => s ++ "\n" ++ joinNl rest

/-- Match a literal string at the front of the input, returning the rest on
success (the semantics of a literal in an anchored `re.match`). -/
def dropLit : List Char → List Char → Option (List Char)
  | [], s => some s
  | _ :: _, [] => none
  | c :: cs, d :: ds => if c == d then dropLit cs ds else none

/-- Numeric value of a decimal digit list, as computed by Python `int(...)`. -/
def natOfDigits (ds : List Char) : Nat :=
  ds.foldl (fun a c => a * 10 + (c.toNat - '0'.toNat)) 0

/-- The regex `^## SECTION (\d+):` of `parse_sections` (a `re.match`, so it is
anchored at the start of the line): on success, the integer section id. -/
def numHeaderId (l : String) : Option Nat :=
  match dropLit "## SECTION ".data l.data with
  | none => none
  | some r =>
    let ds := r.takeWhile fun c => c.isDigit
    if ds.isEmpty then none
    else
      match r.drop ds.length with
      | ':' :: _ => some (natOfDigits ds)
      | _ => none

/-- The regex `^## SECTION: KETOGENIC` of `parse_sections`. -/
def ketoHeader (l : String) : Bool :=
  (dropLit "## SECTION: KETOGENIC".data l.data).isSome

/-- The header classification made by the loop body of `parse_sections`:
the numbered pattern is tested first, then the keto sentinel, which is
assigned the fixed id 18 (`current_section_num = 18`). -/
def headerId (l : String) : Option Nat :=
  match numHeaderId l with
  | some n => some n
  | none => if ketoHeader l then some 18 else none

/-- Python dict assignment `sections[k] = v` on an insertion-ordered
association list: replace in place if the key is present, else append. -/
def dinsert (s : List (Nat × List String)) (k : Nat) (v : List String) :
    List (Nat × List String) :=
  if s.any fun p => p.1 == k then s.map fun p => if p.1 == k then (k, v) else p
  else s ++ [(k, v)]

/-- The loop state of `parse_sections`: `cur` is `current_section_num`
(Python's `in_header` flag is equivalent to `cur = none`, since it is cleared
exactly when the first header sets `current_section_num`), `acc` is
`current_section_content`, `hdr` is `header_lines`, `secs` is `sections`.
Section bodies are kept as line lists; `'\n'.join` is applied at the end,
which agrees with the source joining at each flush since a flushed
accumulator is never touched again. -/
structure ScanState where
  cur : Option Nat
  acc : List String
  hdr : List String
  secs : List (Nat × List String)
  deriving Repr, DecidableEq

/-- One iteration of the `for line in lines` loop of `parse_sections`. -/
def scanStep (st : ScanState) (line : String) : ScanState :=
  match headerId line with
  | some n =>
    match st.cur with
    | none => { st with cur := some n, acc := [line] }
    | some m =>
      { cur := some n, acc := [line], hdr := st.hdr, secs := dinsert st.secs m st.acc }
  | none =>
    match st.cur with
    | none => { st with hdr := st.hdr ++ [line] }
    | some _ => { st with acc := st.acc ++ [line] }

/-- The final flush after the loop of `parse_sections`
(`if current_section_num is not None: sections[...] = ...`). -/
def scanFinish (st : ScanState) : List String × List (Nat × List String) :=
  match st.cur with
  | none => (st.hdr, st.secs)
  | some m => (st.hdr, dinsert st.secs m st.acc)

/-- `parse_sections` on an explicit line list: raw header lines and raw
section blocks. -/
def parseLinesRaw (lines : List String) : List String × List (Nat × List String) :=
  scanFinish (lines.foldl scanStep ⟨none, [], [], []⟩)

/-- `parse_sections` on an explicit line list, with the final
`'\n'.join(header_lines).strip()` and per-section `'\n'.join`. -/
def parseLines (lines : List String) : String × List (Nat × String) :=
  let r := parseLinesRaw lines
  (pyStrip (joinNl r.1), r.2.map fun p => (p.1, joinNl p.2))

/-- `parse_sections(content)` of `split_ingredient_substitutes.py`:
returns `(header, sections)`. -/
def parse_sections (content : String) : String × List (Nat × String) :=
  parseLines (splitNl content)

/-- One value of the `SECTION_MAPPING` dict: target file, ordered section id
list, title. -/
structure CategoryInfo where
  file : String
  sections : List Nat
  title : String
  deriving Repr, DecidableEq

/-- The `SECTION_MAPPING` configuration of `split_ingredient_substitutes.py`,
in source (insertion) order. -/
def SECTION_MAPPING : List (String × CategoryInfo) :=
  [("grains",
    ⟨"pcos_ingredient_substitutes_grains.txt", [1, 3],
     "PCOS-FRIENDLY INGREDIENT SUBSTITUTES - GRAINS & SWEETENERS"⟩),
   ("proteins",
    ⟨"pcos_ingredient_substitutes_proteins.txt", [4, 5, 17],
     "PCOS-FRIENDLY INGREDIENT SUBSTITUTES - PROTEINS & DAIRY"⟩),
   ("produce",
    ⟨"pcos_ingredient_substitutes_produce_and_fats.txt", [2, 6],
     "PCOS-FRIENDLY INGREDIENT SUBSTITUTES - PRODUCE & FATS"⟩),
   ("prepared",
    ⟨"pcos_ingredient_substitutes_prepared_foods.txt", [7, 8, 9, 10, 11],
     "PCOS-FRIENDLY INGREDIENT SUBSTITUTES - PREPARED FOODS & REGIONAL SPECIALTIES"⟩),
   ("special",
    ⟨"pcos_ingredient_substitutes_special_diets.txt", [12, 13, 14, 15, 16],
     "PCOS-FRIENDLY INGREDIENT SUBSTITUTES - SPECIAL DIETS & GUIDANCE"⟩),
   ("keto",
    ⟨"pcos_keto_substitutes.txt", [18],
     "PCOS-FRIENDLY KETOGENIC DIET SUBSTITUTES"⟩)]

/-- Python `"=" * 80`. -/
def eq80 : String := ⟨List.replicate 80 '='⟩

/-- Python `category_name.upper()` (the category names are ASCII). -/
def pyUpper (s : String) : String := ⟨s.data.map Char.toUpper⟩

/-- `section_num in sections` / `sections[section_num]` on the
insertion-ordered association list (keys are unique by construction). -/
def lookupD (idx : List (Nat × String)) (n : Nat) : Option String :=
  match idx with
  | [] => none
  | p :: rest => if p.1 == n then some p.2 else lookupD rest n

/-- The section-emitting loop of `create_file_content`: for each id in
declared order, a blank line and the body when the id is present, nothing
otherwise. -/
def sectionParts (idx : List (Nat × String)) : List Nat → List String
  | [] => []
  | n :: ns =>
    (match lookupD idx n with
     | some t => ["", t]
     | none => []) ++ sectionParts idx ns

/-- `create_file_content(category_name, category_info, header, sections)` of
`split_ingredient_substitutes.py`. The `header` parameter is accepted and
ignored, exactly as in the source, whose body never references it. -/
def create_file_content (category_name : String) (category_info : CategoryInfo)
    (header : String) (sections : List (Nat × String)) : String :=
  let _ := header
  joinNl
    ([category_info.title,
      "Version: 2025-11-11 (Split from main file)",
      "Purpose: RAG file for LangChain embeddings - " ++ pyUpper category_name ++ " category",
      "Format: Ingredient → Substitute mapping with regional alternatives and diet-type considerations",
      "Usage: Query by ingredient name, cooking method, or diet restriction to retrieve PCOS-friendly alternatives",
      "",
      eq80] ++
     sectionParts sections category_info.sections ++
     ["",
      eq80,
      "END OF " ++ category_info.title,
      eq80])

/-- The content-producing part of `main()`: parse the input once, then build
the six category files in `SECTION_MAPPING` order, pairing each output file
name with its generated content. -/
def runSplit (content : String) : List (String × String) :=
  let r := parse_sections content
  SECTION_MAPPING.map fun p => (p.2.file, create_file_content p.1 p.2 r.1 r.2)

/-- The reconstruction considered by the round-trip property: the preamble
followed by all section texts in insertion order, joined by newlines (the
separators consumed by `content.split('\n')`). -/
def reconcat (pr : String) (secs : List (Nat × String)) : String :=
  joinNl (pr :: secs.map Prod.snd)

/-!
Embedding of `restructure_supplement_file` of `restructure_supplements.py`:
seven sequential `re.sub` rewrites over the whole content. Each pattern only
quantifies single character classes, so Python's leftmost, greedy,
backtracking match is a deterministic function of the input; each rule is
given as an attempt function tried at every position by a generic
left-to-right scanner (`scanSub`), exactly as `re.sub` scans. An attempt
receives a flag telling whether the current position is at the start of a
line (position 0 or just after a newline), which is where `^` matches under
`re.MULTILINE`; it returns the replacement text, whether the position after
the match is at the start of a line (i.e. the last consumed character was a
newline), and the unconsumed rest.
-/

/-- Generic `re.sub` scan: at each position try the rule; on a match emit the
replacement and resume after the match, otherwise copy one character. All
rules consume at least one character, so `fuel = input length` never runs
out. -/
def scanSub (att : Bool → List Char → Option (List Char × Bool × List Char)) :
    Nat → Bool → List Char → List Char
  | 0, _, s => s
  | _ + 1, _, [] => []
  | f + 1, ls, c :: cs =>
    match att ls (c :: cs) with
    | some (rep, ls2, rest) => rep ++ scanSub att f ls2 rest
    | none => c :: scanSub att f (c == '\n') cs

/-- Run a rule over a whole content. -/
def runSub (att : Bool → List Char → Option (List Char × Bool × List Char))
    (s : List Char) : List Char :=
  scanSub att s.length true s

/-- Rule 1, `re.sub(r'===\s*([^=]+)\s*===', r'# \1', content)` (not
anchored). After the literal `===`, the run `b` of non-`=` characters must be
nonempty and be followed by `===`. Greedy backtracking puts the group at the
first non-whitespace character of `b` when `b` has one, else at the last
character of `b` (the leading `\s*` gives one character back so that `[^=]+`
can match). -/
def att1 (_ls : Bool) (s : List Char) : Option (List Char × Bool × List Char) :=
  match s with
  | '=' :: '=' :: '=' :: rest =>
    let b := rest.takeWhile fun c => !(c == '=')
    if b.isEmpty then none
    else
      match rest.drop b.length with
      | '=' :: '=' :: '=' :: rest2 =>
        let g := b.dropWhile isPyWs
        let grp := if g.isEmpty then b.drop (b.length - 1) else g
        some ('#' :: ' ' :: grp, false, rest2)
      | _ => none
  | _ => none

/-- Roman-numeral characters of the class `[IVX]`. -/
def romanChar (c : Char) : Bool := c == 'I' || c == 'V' || c == 'X'

/-- Tail `\s*([^\n]+)` shared by rules 2 and 3: after the greedy whitespace
run `w`, the group takes the following non-newline run when a character
remains; when the input ends inside `w`, backtracking hands the last
non-newline whitespace character to the group (everything after it in `w` is
newlines, which stay unconsumed). Returns `(group, rest)` on success. -/
def wsGroupTail (r : List Char) : Option (List Char × List Char) :=
  let w := r.takeWhile isPyWs
  match r.drop w.length with
  | c :: cs =>
    let g := (c :: cs).takeWhile fun x => !(x == '\n')
    some (g, (c :: cs).drop g.length)
  | [] =>
    let v := w.reverse.dropWhile fun c => c == '\n'
    match v with
    | c :: _ => some ([c], w.drop v.length)
    | [] => none

/-- Rule 2, `re.sub(r'^CATEGORY ([IVX]+)[:|-]\s*([^\n]+)',
r'## CATEGORY \1 - \2', content, flags=re.MULTILINE)`. -/
def att2 (ls : Bool) (s : List Char) : Option (List Char × Bool × List Char) :=
  if ls then
    match dropLit "CATEGORY ".data s with
    | none => none
    | some r1 =>
      let rom := r1.takeWhile romanChar
      if rom.isEmpty then none
      else
        match r1.drop rom.length with
        | d :: r3 =>
          if d == ':' || d == '|' || d == '-' then
            match wsGroupTail r3 with
            | some (g2, rest) =>
              some ("## CATEGORY ".data ++ rom ++ " - ".data ++ g2, false, rest)
            | none => none
          else none
        | [] => none
  else none

/-- Rule 3, `re.sub(r'^SUPPLEMENT:\s*([^\n]+)', r'### \1', content,
flags=re.MULTILINE)`. -/
def att3 (ls : Bool) (s : List Char) : Option (List Char × Bool × List Char) :=
  if ls then
    match dropLit "SUPPLEMENT:".data s with
    | none => none
    | some r =>
      match wsGroupTail r with
      | some (g, rest) => some ("### ".data ++ g, false, rest)
      | none => none
  else none

/-- The class `[A-Z]`. -/
def upperAZ (c : Char) : Bool := 'A' ≤ c && c ≤ 'Z'

/-- Rule 4, `re.sub(r'^([A-Z][A-Z\s]+):$', r'#### \1', content,
flags=re.MULTILINE)`. The class `[A-Z\s]` contains the newline, so the run
may span lines; since `:` is outside the class, the greedy run admits no
backtracking, and the match succeeds exactly when the maximal run is
followed by `:` at a line end. -/
def att4 (ls : Bool) (s : List Char) : Option (List Char × Bool × List Char) :=
  if ls then
    match s with
    | c :: rest =>
      if upperAZ c then
        let run := rest.takeWhile fun x => upperAZ x || isPyWs x
        if run.isEmpty then none
        else
          match rest.drop run.length with
          | ':' :: r2 =>
            match r2 with
            | [] => some ("#### ".data ++ c :: run, false, [])
            | '\n' :: _ => some ("#### ".data ++ c :: run, false, r2)
            | _ => none
          | _ => none
      else none
    | [] => none
  else none

/-- Shared tail of rule 5: consume the greedy trailing `\s*` after the
matched label and produce the replacement `**<label>:** `. The position
after the match is a line start exactly when the whitespace run ended with a
newline. -/
def mk5 (label : String) (r : List Char) : Option (List Char × Bool × List Char) :=
  let w := r.takeWhile isPyWs
  some ("**".data ++ label.data ++ ":** ".data,
    (match w.getLast? with
     | some c => c == '\n'
     | none => false),
    r.drop w.length)

/-- Rule 5, `re.sub(r'^(Category|Evidence Level|Supplement Type):\s*',
r'**\1:** ', content, flags=re.MULTILINE)`; the alternatives begin with
distinct characters, so they are tried deterministically. -/
def att5 (ls : Bool) (s : List Char) : Option (List Char × Bool × List Char) :=
  if ls then
    match dropLit "Category:".data s with
    | some r => mk5 "Category" r
    | none =>
      match dropLit "Evidence Level:".data s with
      | some r => mk5 "Evidence Level" r
      | none =>
        match dropLit "Supplement Type:".data s with
        | some r => mk5 "Supplement Type" r
        | none => none
  else none

/-- Rules 6a-6c, `re.sub(r'^---+$', '', ...)`, `re.sub(r'^═+$', '', ...)`,
`re.sub(r'^─+$', '', ...)`, all with `re.MULTILINE`: a line consisting of at
least `minLen` copies of `ch` and nothing else is replaced by the empty
string (`$` is zero-width, so the newline ending the line is kept). -/
def attHr (ch : Char) (minLen : Nat) (ls : Bool) (s : List Char) :
    Option (List Char × Bool × List Char) :=
  if ls then
    let run := s.takeWhile fun c => c == ch
    if run.length < minLen then none
    else
      match s.drop run.length with
      | [] => some ([], false, [])
      | '\n' :: r => some ([], false, '\n' :: r)
      | _ => none
  else none

/-- Rule 7, `re.sub(r'\n{3,}', '\n\n', content)` (not anchored): a maximal
run of three or more newlines collapses to two. -/
def att7 (_ls : Bool) (s : List Char) : Option (List Char × Bool × List Char) :=
  let run := s.takeWhile fun c => c == '\n'
  if run.length < 3 then none
  else some (['\n', '\n'], true, s.drop run.length)

/-- Rule 6a as a content transform (`^---+$`: three or more dashes). -/
def subRule6a (s : List Char) : List Char := runSub (attHr '-' 3) s

/-- Rule 6b as a content transform (`^═+$`). -/
def subRule6b (s : List Char) : List Char := runSub (attHr '═' 1) s

/-- Rule 6c as a content transform (`^─+$`). -/
def subRule6c (s : List Char) : List Char := runSub (attHr '─' 1) s

/-- The pure content transform performed by `restructure_supplement_file`
between reading the input file and writing the output file: the seven
rewrite rules applied in source order. -/
def restructureContent (content : String) : String :=
  let c1 := runSub att1 content.data
  let c2 := runSub att2 c1
  let c3 := runSub att3 c2
  let c4 := runSub att4 c3
  let c5 := runSub att5 c4
  let c6 := subRule6c (subRule6b (subRule6a c5))
  ⟨runSub att7 c6⟩

/-- Newline-join on raw line contents (the `List Char` counterpart of
`joinNl`). -/
def charJoin : List (List Char) → List Char
  | [] => []
  | [l] => l
  | l :: rest => l ++ '\n' :: charJoin rest

/-- A line consisting solely of horizontal-rule characters, as recognized by
rules 6a-6c: three or more `-`, or one or more `═`, or one or more `─`. -/
def hrLine (l : List Char) : Bool :=
  (decide (3 ≤ l.length) && l.all fun c => c == '-') ||
  (decide (1 ≤ l.length) && l.all fun c => c == '═') ||
  (decide (1 ≤ l.length) && l.all fun c => c == '─')

/-! Lemmas about the section scanner. -/

theorem dinsert_any_iff (s : List (Nat × List String)) (k : Nat) :
    (s.any fun p => p.1 == k) = true ↔ k ∈ s.map Prod.fst := by
  induction s with
  | nil => simp
  | cons q t ih =>
    simp only [List.any_cons, List.map_cons, List.mem_cons, Bool.or_eq_true, beq_iff_eq, ih]
    constructor
    · rintro (h | h)
      · exact Or.inl h.symm
      · exact Or.inr h
    · rintro (h | h)
      · exact Or.inl h.symm
      · exact Or.inr h

theorem dinsert_fresh (s : List (Nat × List String)) (k : Nat) (v : List String)
    (h : k ∉ s.map Prod.fst) : dinsert s k v = s ++ [(k, v)] := by
  unfold dinsert
  rw [if_neg]
  intro hc
  exact h ((dinsert_any_iff s k).mp hc)

theorem dinsert_blocks_ne (s : List (Nat × List String)) (k : Nat)
    (v : List String) (hs : ∀ p ∈ s, p.2 ≠ []) (hv : v ≠ []) :
    ∀ p ∈ dinsert s k v, p.2 ≠ [] := by
  intro p hp
  unfold dinsert at hp
  split at hp
  · rcases List.mem_map.mp hp with ⟨q, hq, hpq⟩
    cases hqk : (q.1 == k) with
    | true => simp only [hqk, if_true] at hpq; subst hpq; exact hv
    | false => simp only [hqk, if_false] at hpq; subst hpq; exact hs q hq
  · rcases List.mem_append.mp hp with h1 | h1
    · exact hs p h1
    · rcases List.mem_singleton.mp h1 with rfl
      exact hv

theorem scanStep_cur_hdr (st : ScanState) (l : String) (m : Nat)
    (h : st.cur = some m) :
    (scanStep st l).cur.isSome ∧ (scanStep st l).hdr = st.hdr := by
  cases hh : headerId l <;> simp [scanStep, hh, h]

theorem cur_foldl_isSome (ls : List String) :
    ∀ st : ScanState, st.cur.isSome → ((ls.foldl scanStep st).cur.isSome ∧
      (ls.foldl scanStep st).hdr = st.hdr) := by
  induction ls with
  | nil => intro st h; exact ⟨h, rfl⟩
  | cons l t ih =>
    intro st h
    rcases Option.isSome_iff_exists.mp h with ⟨m, hm⟩
    simp only [List.foldl_cons]
    have hstep := scanStep_cur_hdr st l m hm
    have hfin := ih (scanStep st l) hstep.1
    exact ⟨hfin.1, hfin.2.trans hstep.2⟩

theorem hdr_foldl_none (ls : List String) :
    ∀ st : ScanState, st.cur = none →
      (ls.foldl scanStep st).hdr =
        st.hdr ++ ls.takeWhile fun l => (headerId l).isNone := by
  induction ls with
  | nil => intro st _; simp
  | cons l t ih =>
    intro st h
    simp only [List.foldl_cons]
    cases hh : headerId l with
    | some n =>
      have hcur : (scanStep st l).cur = some n := by simp [scanStep, hh, h]
      have hhdr : (scanStep st l).hdr = st.hdr := by simp [scanStep, hh, h]
      have hs := cur_foldl_isSome t (scanStep st l) (by simp [hcur])
      rw [hs.2, hhdr]
      simp [List.takeWhile_cons, hh]
    | none =>
      have hst : scanStep st l = { st with hdr := st.hdr ++ [l] } := by
        simp [scanStep, hh, h]
      rw [hst, ih _ (by simpa using h)]
      simp [List.takeWhile_cons, hh]

theorem foldl_no_headers_none (ls : List String) :
    ∀ st : ScanState, (∀ l ∈ ls, headerId l = none) → st.cur = none →
      ls.foldl scanStep st = { st with hdr := st.hdr ++ ls } := by
  induction ls with
  | nil => intro st _ _; simp
  | cons l t ih =>
    intro st hall h
    have hh : headerId l = none := hall l (List.mem_cons_self l t)
    simp only [List.foldl_cons]
    have := ih { st with hdr := st.hdr ++ [l] }
      (fun x hx => hall x (List.mem_cons_of_mem l hx)) (by simpa using h)
    rw [h] at this
    simp only [scanStep, hh, h]
    rw [this]
    simp

theorem not_mem_of_nodup_middle (a : Nat) (xs ys : List Nat)
    (h : (xs ++ a :: ys).Nodup) : a ∉ xs := by
  intro ha
  exact (List.nodup_append.mp h).2.2 ha (List.mem_cons_self a ys)

theorem keys_foldl (ls : List String) :
    ∀ st : ScanState,
      (st.secs.map Prod.fst ++ st.cur.toList ++ ls.filterMap headerId).Nodup →
      (scanFinish (ls.foldl scanStep st)).2.map Prod.fst =
        st.secs.map Prod.fst ++ st.cur.toList ++ ls.filterMap headerId := by
  induction ls with
  | nil =>
    intro st hnd
    cases hc : st.cur with
    | none => simp [scanFinish, hc]
    | some m =>
      rw [hc] at hnd
      simp only [List.filterMap_nil, List.append_nil, Option.toList_some] at hnd
      have hm : m ∉ st.secs.map Prod.fst := not_mem_of_nodup_middle _ _ _ hnd
      simp [scanFinish, hc, dinsert_fresh _ _ _ hm]
  | cons l t ih =>
    intro st hnd
    simp only [List.foldl_cons]
    cases hh : headerId l with
    | some n =>
      have hfm : List.filterMap headerId (l :: t) = n :: List.filterMap headerId t := by
        simp [List.filterMap_cons, hh]
      rw [hfm] at hnd ⊢
      cases hc : st.cur with
      | none =>
        have hst : scanStep st l = { st with cur := some n, acc := [l] } := by
          simp [scanStep, hh, hc]
        rw [hst]
        rw [hc] at hnd
        have hnd2 : ((st.secs.map Prod.fst) ++ (some n).toList ++
            t.filterMap headerId).Nodup := by simpa using hnd
        have := ih { st with cur := some n, acc := [l] } (by simpa using hnd2)
        simpa using this
      | some m =>
        rw [hc] at hnd
        have hm : m ∉ st.secs.map Prod.fst := by
          apply not_mem_of_nodup_middle m (List.map Prod.fst st.secs) (n :: t.filterMap headerId)
          simpa using hnd
        have hst : scanStep st l = ⟨some n, [l], st.hdr, st.secs ++ [(m, st.acc)]⟩ := by
          simp [scanStep, hh, hc, dinsert_fresh _ _ _ hm]
        rw [hst]
        have hnd2 : ((st.secs ++ [(m, st.acc)]).map Prod.fst ++ (some n).toList ++
            t.filterMap headerId).Nodup := by simpa using hnd
        have := ih ⟨some n, [l], st.hdr, st.secs ++ [(m, st.acc)]⟩ hnd2
        simpa using this
    | none =>
      have hfm : List.filterMap headerId (l :: t) = List.filterMap headerId t := by
        simp [List.filterMap_cons, hh]
      rw [hfm] at hnd ⊢
      cases hc : st.cur with
      | none =>
        have hst : scanStep st l = { st with hdr := st.hdr ++ [l] } := by
          simp [scanStep, hh, hc]
        rw [hst]
        have := ih { st with hdr := st.hdr ++ [l] } (by simpa [hc] using hnd)
        simpa [hc] using this
      | some m =>
        have hst : scanStep st l = { st with acc := st.acc ++ [l] } := by
          simp [scanStep, hh, hc]
        rw [hst]
        have := ih { st with acc := st.acc ++ [l] } (by simpa [hc] using hnd)
        simpa [hc] using this

theorem foldl_no_headers_some (ls : List String) :
    ∀ (st : ScanState) (m : Nat), (∀ l ∈ ls, headerId l = none) →
      st.cur = some m →
      ls.foldl scanStep st = { st with acc := st.acc ++ ls } := by
  induction ls with
  | nil => intro st m _ _; simp
  | cons l t ih =>
    intro st m hall h
    have hh : headerId l = none := hall l (List.mem_cons_self l t)
    simp only [List.foldl_cons]
    have := ih { st with acc := st.acc ++ [l] } m
      (fun x hx => hall x (List.mem_cons_of_mem l hx)) (by simpa using h)
    rw [h] at this
    simp only [scanStep, hh, h]
    rw [this]
    simp

theorem recon_foldl (ls : List String) :
    ∀ st : ScanState,
      (st.secs.map Prod.fst ++ st.cur.toList ++ ls.filterMap headerId).Nodup →
      (st.cur = none → st.acc = [] ∧ st.secs = []) →
      (scanFinish (ls.foldl scanStep st)).1 ++
          ((scanFinish (ls.foldl scanStep st)).2.map Prod.snd).flatten =
        st.hdr ++ (st.secs.map Prod.snd).flatten ++ st.acc ++ ls := by
  induction ls with
  | nil =>
    intro st hnd himp
    cases hc : st.cur with
    | none =>
      rcases himp hc with ⟨h1, h2⟩
      simp [scanFinish, hc, h1, h2]
    | some m =>
      rw [hc] at hnd
      simp only [List.filterMap_nil, List.append_nil, Option.toList_some] at hnd
      have hm : m ∉ st.secs.map Prod.fst := not_mem_of_nodup_middle _ _ _ hnd
      simp [scanFinish, hc, dinsert_fresh _ _ _ hm, List.append_assoc]
  | cons l t ih =>
    intro st hnd himp
    simp only [List.foldl_cons]
    cases hh : headerId l with
    | some n =>
      have hfm : List.filterMap headerId (l :: t) = n :: List.filterMap headerId t := by
        simp [List.filterMap_cons, hh]
      rw [hfm] at hnd
      cases hc : st.cur with
      | none =>
        rcases himp hc with ⟨h1, h2⟩
        have hst : scanStep st l = { st with cur := some n, acc := [l] } := by
          simp [scanStep, hh, hc]
        rw [hst]
        have := ih { st with cur := some n, acc := [l] }
          (by simpa [hc] using hnd) (fun hx => Option.noConfusion hx)
        simp only at this
        rw [this]
        simp [h1, h2]
      | some m =>
        rw [hc] at hnd
        have hm : m ∉ st.secs.map Prod.fst := by
          apply not_mem_of_nodup_middle m (List.map Prod.fst st.secs) (n :: t.filterMap headerId)
          simpa using hnd
        have hst : scanStep st l = ⟨some n, [l], st.hdr, st.secs ++ [(m, st.acc)]⟩ := by
          simp [scanStep, hh, hc, dinsert_fresh _ _ _ hm]
        rw [hst]
        have := ih ⟨some n, [l], st.hdr, st.secs ++ [(m, st.acc)]⟩
          (by simpa using hnd) (fun hx => Option.noConfusion hx)
        simp only at this
        rw [this]
        simp [List.append_assoc]
    | none =>
      have hfm : List.filterMap headerId (l :: t) = List.filterMap headerId t := by
        simp [List.filterMap_cons, hh]
      rw [hfm] at hnd
      cases hc : st.cur with
      | none =>
        rcases himp hc with ⟨h1, h2⟩
        have hst : scanStep st l = { st with hdr := st.hdr ++ [l] } := by
          simp [scanStep, hh, hc]
        rw [hst]
        have := ih { st with hdr := st.hdr ++ [l] }
          (by simpa [hc] using hnd)
          (fun _ => ⟨h1, h2⟩)
        simp only at this
        rw [this]
        simp [h1, h2]
      | some m =>
        have hst : scanStep st l = { st with acc := st.acc ++ [l] } := by
          simp [scanStep, hh, hc]
        rw [hst]
        have := ih { st with acc := st.acc ++ [l] }
          (by simpa [hc] using hnd)
          (fun hx => by rw [hc] at hx; exact Option.noConfusion hx)
        simp only at this
        rw [this]
        simp [List.append_assoc]

theorem blocks_foldl (ls : List String) :
    ∀ st : ScanState, (∀ m, st.cur = some m → st.acc ≠ []) →
      (∀ p ∈ st.secs, p.2 ≠ []) →
      ∀ p ∈ (scanFinish (ls.foldl scanStep st)).2, p.2 ≠ [] := by
  induction ls with
  | nil =>
    intro st hacc hsecs p hp
    cases hc : st.cur with
    | none =>
      simp only [List.foldl_nil, scanFinish, hc] at hp
      exact hsecs p hp
    | some m =>
      simp only [List.foldl_nil, scanFinish, hc] at hp
      exact dinsert_blocks_ne st.secs m st.acc hsecs (hacc m hc) p hp
  | cons l t ih =>
    intro st hacc hsecs
    simp only [List.foldl_cons]
    cases hh : headerId l with
    | some n =>
      cases hc : st.cur with
      | none =>
        have hst : scanStep st l = { st with cur := some n, acc := [l] } := by
          simp [scanStep, hh, hc]
        rw [hst]
        exact ih _ (fun m' _ => by simp) hsecs
      | some m =>
        have hst : scanStep st l = ⟨some n, [l], st.hdr, dinsert st.secs m st.acc⟩ := by
          simp [scanStep, hh, hc]
        rw [hst]
        exact ih _ (fun m' _ => by simp)
          (dinsert_blocks_ne st.secs m st.acc hsecs (hacc m hc))
    | none =>
      cases hc : st.cur with
      | none =>
        have hst : scanStep st l = { st with hdr := st.hdr ++ [l] } := by
          simp [scanStep, hh, hc]
        rw [hst]
        exact ih _ (fun m' hm' => hacc m' (by simpa using hm')) hsecs
      | some m =>
        have hst : scanStep st l = { st with acc := st.acc ++ [l] } := by
          simp [scanStep, hh, hc]
        rw [hst]
        exact ih _ (fun m' _ => by simp) hsecs

theorem str_assoc (a b c : String) : a ++ b ++ c = a ++ (b ++ c) := by
  cases a with
  | mk la =>
    cases b with
    | mk lb =>
      cases c with
      | mk lc =>
        show String.mk (la ++ lb ++ lc) = String.mk (la ++ (lb ++ lc))
        rw [List.append_assoc]

theorem joinNl_append (xs ys : List String) (hx : xs ≠ []) (hy : ys ≠ []) :
    joinNl (xs ++ ys) = joinNl xs ++ "\n" ++ joinNl ys := by
  induction xs with
  | nil => exact absurd rfl hx
  | cons x t ih =>
    cases t with
    | nil =>
      cases ys with
      | nil => exact absurd rfl hy
      | cons y t2 => simp [joinNl]
    | cons x2 t2 =>
      have := ih (by simp)
      show joinNl (x :: ((x2 :: t2) ++ ys)) = joinNl (x :: x2 :: t2) ++ "\n" ++ joinNl ys
      have h1 : joinNl (x :: ((x2 :: t2) ++ ys)) =
          x ++ "\n" ++ joinNl ((x2 :: t2) ++ ys) := by
        cases t2 <;> cases ys <;> simp [joinNl]
      have h2 : joinNl (x :: x2 :: t2) = x ++ "\n" ++ joinNl (x2 :: t2) := rfl
      rw [h1, this, h2, str_assoc (x ++ "\n"), str_assoc (x ++ "\n")]

theorem flatten_ne (bs : List (List String)) (hne : bs ≠ [])
    (hb : ∀ b ∈ bs, b ≠ []) : bs.flatten ≠ [] := by
  cases bs with
  | nil => exact absurd rfl hne
  | cons b t =>
    have : b ≠ [] := hb b (List.mem_cons_self b t)
    cases b with
    | nil => exact absurd rfl this
    | cons x xs => simp

theorem joinNl_flatten (bs : List (List String)) (hb : ∀ b ∈ bs, b ≠ []) :
    joinNl bs.flatten = joinNl (bs.map joinNl) := by
  induction bs with
  | nil => rfl
  | cons b t ih =>
    have hbne : b ≠ [] := hb b (List.mem_cons_self b t)
    cases ht : t with
    | nil =>
      simp only [List.flatten_cons, List.flatten_nil, List.append_nil, List.map_cons,
        List.map_nil]
      rfl
    | cons b2 t2 =>
      rw [← ht]
      have htne : t ≠ [] := by rw [ht]; simp
      have hfl : t.flatten ≠ [] :=
        flatten_ne t htne (fun x hx => hb x (List.mem_cons_of_mem b hx))
      have hmap : t.map joinNl ≠ [] := by
        intro hcon
        rw [List.map_eq_nil_iff] at hcon
        exact htne hcon
      calc joinNl ((b :: t).flatten) = joinNl (b ++ t.flatten) := by
            simp [List.flatten_cons]
        _ = joinNl b ++ "\n" ++ joinNl t.flatten := joinNl_append b t.flatten hbne hfl
        _ = joinNl b ++ "\n" ++ joinNl (t.map joinNl) := by
            rw [ih (fun x hx => hb x (List.mem_cons_of_mem b hx))]
        _ = joinNl (joinNl b :: t.map joinNl) := by
            rw [show (joinNl b :: t.map joinNl) = [joinNl b] ++ t.map joinNl from rfl,
              joinNl_append [joinNl b] (t.map joinNl) (by simp) hmap]
            rfl
        _ = joinNl ((b :: t).map joinNl) := by simp

theorem scanFinish_fst (st : ScanState) : (scanFinish st).1 = st.hdr := by
  cases hc : st.cur <;> simp [scanFinish, hc]

theorem parseLinesRaw_hdr (lines : List String) :
    (parseLinesRaw lines).1 = lines.takeWhile fun l => (headerId l).isNone := by
  unfold parseLinesRaw
  rw [scanFinish_fst, hdr_foldl_none lines ⟨none, [], [], []⟩ rfl]
  rfl

theorem length_filterMap_headerId (lines : List String) :
    (lines.filterMap headerId).length = lines.countP fun l => (headerId l).isSome := by
  induction lines with
  | nil => rfl
  | cons l t ih =>
    cases hh : headerId l <;>
      simp [List.filterMap_cons, List.countP_cons, hh, ih]

theorem dropLit_some (lit : List Char) : ∀ (s r : List Char),
    dropLit lit s = some r ↔ s = lit ++ r := by
  induction lit with
  | nil => intro s r; simp [dropLit]
  | cons c cs ih =>
    intro s r
    cases s with
    | nil => simp [dropLit]
    | cons d ds =>
      show (if c == d then dropLit cs ds else none) = some r ↔ _
      cases hc : (c == d) with
      | true =>
        have : c = d := beq_iff_eq.mp hc
        subst this
        simp [ih ds r]
      | false =>
        have : ¬(c = d) := fun h => by simp [h] at hc
        simp [this]
        intro h
        exact absurd h.symm this

theorem headerId_of_keto (l : String) (h : ketoHeader l = true) :
    headerId l = some 18 := by
  cases l with
  | mk d =>
    unfold ketoHeader at h
    rcases Option.isSome_iff_exists.mp h with ⟨r, hr⟩
    have hd : d = "## SECTION: KETOGENIC".data ++ r := by
      have := (dropLit_some "## SECTION: KETOGENIC".data d r).mp
      exact this hr
    subst hd
    rfl

/-! Claim theorems for `split_ingredient_substitutes.py`. -/

/-- C6, counterexample: the claim asks that a document with no recognized
headers come back as preamble unchanged, but `parse_sections` strips the
joined preamble, so the document `"abc\n"` (no headers) yields the preamble
`"abc"`, not the whole document. -/
theorem C6_counterexample :
    (∀ l ∈ splitNl "abc\n", headerId l = none) ∧
      (parse_sections "abc\n").2 = [] ∧ (parse_sections "abc\n").1 ≠ "abc\n" :=
  ⟨by decide, by decide, by decide⟩

/-- C6 (amended): a document with no recognized header lines yields an empty
SectionIndex and a preamble equal to the whole document stripped of leading
and trailing whitespace. -/
theorem C6_no_headers_amended (lines : List String)
    (h : ∀ l ∈ lines, headerId l = none) :
    parseLines lines = (pyStrip (joinNl lines), []) := by
  unfold parseLines parseLinesRaw
  rw [foldl_no_headers_none lines ⟨none, [], [], []⟩ h rfl]
  simp [scanFinish]

/-- Witness for C6 (amended) at the header-free document `"abc" / ""`. -/
theorem C6_no_headers_amended_witness :
    (∀ l ∈ ["abc", ""], headerId l = none) ∧
      parseLines ["abc", ""] = (pyStrip (joinNl ["abc", ""]), []) :=
  ⟨by decide, C6_no_headers_amended ["abc", ""] (by decide)⟩

/-- C3, counterexample: a document in which the same section id occurs on two
header lines has two recognized header lines but only one SectionIndex entry
(the Python dict keeps one entry per key), so entry count and header count
differ. -/
theorem C3_counterexample :
    (parse_sections "## SECTION 1:\na\n## SECTION 1:\nb").2.length ≠
      ((splitNl "## SECTION 1:\na\n## SECTION 1:\nb").countP
        fun l => (headerId l).isSome) := by decide

/-- C3 (amended): when the recognized header ids of the document are pairwise
distinct, the number of SectionIndex entries equals the number of recognized
header lines. -/
theorem C3_count_amended (lines : List String)
    (h : (lines.filterMap headerId).Nodup) :
    (parseLines lines).2.length = lines.countP fun l => (headerId l).isSome := by
  have hk := keys_foldl lines ⟨none, [], [], []⟩ (by simpa using h)
  have h1 : (parseLines lines).2.length = (parseLinesRaw lines).2.length := by
    simp [parseLines]
  have h2 : (parseLinesRaw lines).2.map Prod.fst = lines.filterMap headerId := by
    simpa [parseLinesRaw] using hk
  have h3 := congrArg List.length h2
  rw [h1, ← length_filterMap_headerId]
  simpa using h3

/-- Witness for C3 (amended) at a two-section document. -/
theorem C3_count_amended_witness :
    ((["## SECTION 1:", "a", "## SECTION 2:", "b"].filterMap headerId).Nodup) ∧
      (parseLines ["## SECTION 1:", "a", "## SECTION 2:", "b"]).2.length =
        ["## SECTION 1:", "a", "## SECTION 2:", "b"].countP
          (fun l => (headerId l).isSome) :=
  ⟨by decide, C3_count_amended _ (by decide)⟩

/-- C1, counterexample: for the document `"## SECTION 1:\na\n## SECTION 1:\nb"`
the duplicated id 1 makes the scanner overwrite the first block, so
concatenating the preamble with the section texts in insertion order (with
the newline separators that `split('\n')` consumed) does not reconstruct the
document: the first block is lost. -/
theorem C1_counterexample :
    reconcat (parse_sections "## SECTION 1:\na\n## SECTION 1:\nb").1
        (parse_sections "## SECTION 1:\na\n## SECTION 1:\nb").2 ≠
      "## SECTION 1:\na\n## SECTION 1:\nb" := by decide

/-- C1 (amended): for a document whose recognized header ids are pairwise
distinct, whose first line is not a recognized header, and whose preamble is
unchanged by Python `strip()`, the newline-join of the preamble and the
section texts in insertion order reconstructs the document exactly. -/
theorem C1_round_trip_amended (l0 : String) (rest : List String)
    (hfirst : headerId l0 = none)
    (hnd : ((l0 :: rest).filterMap headerId).Nodup)
    (hstrip : pyStrip (joinNl ((l0 :: rest).takeWhile fun l => (headerId l).isNone)) =
      joinNl ((l0 :: rest).takeWhile fun l => (headerId l).isNone)) :
    reconcat (parseLines (l0 :: rest)).1 (parseLines (l0 :: rest)).2 =
      joinNl (l0 :: rest) := by
  have hhdr : (parseLinesRaw (l0 :: rest)).1 =
      (l0 :: rest).takeWhile fun l => (headerId l).isNone := parseLinesRaw_hdr _
  have hrec : (parseLinesRaw (l0 :: rest)).1 ++
      ((parseLinesRaw (l0 :: rest)).2.map Prod.snd).flatten = l0 :: rest := by
    have := recon_foldl (l0 :: rest) ⟨none, [], [], []⟩ (by simpa using hnd)
      (fun _ => ⟨rfl, rfl⟩)
    simpa [parseLinesRaw] using this
  have hblocks : ∀ p ∈ (parseLinesRaw (l0 :: rest)).2, p.2 ≠ [] := by
    have := blocks_foldl (l0 :: rest) ⟨none, [], [], []⟩
      (fun m hm => Option.noConfusion hm)
      (fun p hp => absurd hp (List.not_mem_nil p))
    simpa [parseLinesRaw] using this
  have hpre : (parseLines (l0 :: rest)).1 =
      joinNl ((l0 :: rest).takeWhile fun l => (headerId l).isNone) := by
    simp only [parseLines]
    rw [hhdr]
    exact hstrip
  have hsnd : (parseLines (l0 :: rest)).2.map Prod.snd =
      ((parseLinesRaw (l0 :: rest)).2.map Prod.snd).map joinNl := by
    simp [parseLines, List.map_map, Function.comp]
  cases hsec : (parseLinesRaw (l0 :: rest)).2 with
  | nil =>
    have hlines : (parseLinesRaw (l0 :: rest)).1 = l0 :: rest := by
      rw [hsec] at hrec
      simpa using hrec
    have hpre2 : (parseLines (l0 :: rest)).1 = joinNl (l0 :: rest) := by
      rw [hpre, ← hhdr, hlines]
    have hsecs2 : (parseLines (l0 :: rest)).2 = [] := by
      simp [parseLines, hsec]
    unfold reconcat
    rw [hsecs2, List.map_nil, hpre2]
    rfl
  | cons q qs =>
    have hbne : ∀ b ∈ (parseLinesRaw (l0 :: rest)).2.map Prod.snd, b ≠ [] := by
      intro b hb
      rcases List.mem_map.mp hb with ⟨p, hp, rfl⟩
      exact hblocks p hp
    have hbl : (parseLinesRaw (l0 :: rest)).2.map Prod.snd ≠ [] := by
      rw [hsec]; simp
    have hfl : ((parseLinesRaw (l0 :: rest)).2.map Prod.snd).flatten ≠ [] :=
      flatten_ne _ hbl hbne
    have hhne : (parseLinesRaw (l0 :: rest)).1 ≠ [] := by
      rw [hhdr]
      simp [List.takeWhile_cons, hfirst]
    have hmapne : (parseLines (l0 :: rest)).2.map Prod.snd ≠ [] := by
      rw [hsnd, hsec]; simp
    have h1 : reconcat (parseLines (l0 :: rest)).1 (parseLines (l0 :: rest)).2 =
        (parseLines (l0 :: rest)).1 ++ "\n" ++
          joinNl ((parseLines (l0 :: rest)).2.map Prod.snd) := by
      unfold reconcat
      rw [show ((parseLines (l0 :: rest)).1 :: (parseLines (l0 :: rest)).2.map Prod.snd)
          = [(parseLines (l0 :: rest)).1] ++ (parseLines (l0 :: rest)).2.map Prod.snd
          from rfl,
        joinNl_append _ _ (by simp) hmapne]
      rfl
    rw [h1, hpre, ← hhdr, hsnd, ← joinNl_flatten _ hbne,
      ← joinNl_append _ _ hhne hfl, hrec]

/-- Witness for C1 (amended) at a two-section document with a preamble. -/
theorem C1_round_trip_amended_witness :
    headerId "intro" = none ∧
      ((("intro" :: ["## SECTION 1:", "a", "## SECTION 2:", "b"]).filterMap
        headerId).Nodup) ∧
      reconcat
          (parseLines ("intro" :: ["## SECTION 1:", "a", "## SECTION 2:", "b"])).1
          (parseLines ("intro" :: ["## SECTION 1:", "a", "## SECTION 2:", "b"])).2 =
        joinNl ("intro" :: ["## SECTION 1:", "a", "## SECTION 2:", "b"]) :=
  ⟨by decide, by decide,
    C1_round_trip_amended "intro" ["## SECTION 1:", "a", "## SECTION 2:", "b"]
      (by decide) (by decide) (by decide)⟩

/-- C10: the keto sentinel marker is assigned the integer id 18 in the same
key space as the numbered markers, and for any document with a preamble, a
first header with id 18, and a second header with id 18 (in particular one
numbered `## SECTION 18:` and one keto sentinel, in either order), the
scanner produces exactly one SectionIndex entry for id 18, holding the text
of the later of the two blocks. -/
theorem C10_keto_id18 :
    (∀ l : String, ketoHeader l = true → headerId l = some 18) ∧
    ∀ (P B C : List String) (h k : String),
      (∀ l ∈ P, headerId l = none) → (∀ l ∈ B, headerId l = none) →
      (∀ l ∈ C, headerId l = none) →
      headerId h = some 18 → headerId k = some 18 →
      (parseLines (P ++ h :: (B ++ k :: C))).2 = [(18, joinNl (k :: C))] := by
  refine ⟨headerId_of_keto, ?_⟩
  intro P B C h k hP hB hC hh hk
  have s1 : List.foldl scanStep ⟨none, [], [], []⟩ (P ++ h :: (B ++ k :: C)) =
      List.foldl scanStep ⟨none, [], P, []⟩ (h :: (B ++ k :: C)) := by
    rw [List.foldl_append, foldl_no_headers_none P ⟨none, [], [], []⟩ hP rfl]
    simp
  have s2 : List.foldl scanStep ⟨none, [], P, []⟩ (h :: (B ++ k :: C)) =
      List.foldl scanStep ⟨some 18, [h], P, []⟩ (B ++ k :: C) := by
    rw [List.foldl_cons]
    congr 1
    simp [scanStep, hh]
  have s3 : List.foldl scanStep ⟨some 18, [h], P, []⟩ (B ++ k :: C) =
      List.foldl scanStep ⟨some 18, [h] ++ B, P, []⟩ (k :: C) := by
    rw [List.foldl_append, foldl_no_headers_some B ⟨some 18, [h], P, []⟩ 18 hB rfl]
  have s4 : List.foldl scanStep ⟨some 18, [h] ++ B, P, []⟩ (k :: C) =
      List.foldl scanStep ⟨some 18, [k], P, [(18, [h] ++ B)]⟩ C := by
    rw [List.foldl_cons]
    congr 1
    simp [scanStep, hk, dinsert]
  have s5 : List.foldl scanStep ⟨some 18, [k], P, [(18, [h] ++ B)]⟩ C =
      ⟨some 18, [k] ++ C, P, [(18, [h] ++ B)]⟩ :=
    foldl_no_headers_some C ⟨some 18, [k], P, [(18, [h] ++ B)]⟩ 18 hC rfl
  unfold parseLines parseLinesRaw
  rw [s1, s2, s3, s4, s5]
  simp [scanFinish, dinsert]

/-- Witness for C10 at a document holding both a numbered `## SECTION 18:`
header and a keto sentinel header. -/
theorem C10_keto_id18_witness :
    (∀ l ∈ ["pre"], headerId l = none) ∧
      headerId "## SECTION 18: OLD KETO" = some 18 ∧
      headerId "## SECTION: KETOGENIC DIET SUBSTITUTES" = some 18 ∧
      (parseLines (["pre"] ++ "## SECTION 18: OLD KETO" ::
          (["x"] ++ "## SECTION: KETOGENIC DIET SUBSTITUTES" :: ["y"]))).2 =
        [(18, joinNl ("## SECTION: KETOGENIC DIET SUBSTITUTES" :: ["y"]))] :=
  ⟨by decide, by decide, by decide,
    C10_keto_id18.2 ["pre"] ["x"] ["y"] "## SECTION 18: OLD KETO"
      "## SECTION: KETOGENIC DIET SUBSTITUTES"
      (by decide) (by decide) (by decide) (by decide) (by decide)⟩

/-- C4: with both referenced ids present, `create_file_content` with the
declared order `[2, 1]` emits section 2's body strictly before section 1's
body, whatever the index holds elsewhere and in whatever order the bodies
appeared in the document. -/
theorem C4_declared_order (category_name file title header : String)
    (idx : List (Nat × String)) (t1 t2 : String)
    (h1 : lookupD idx 1 = some t1) (h2 : lookupD idx 2 = some t2) :
    create_file_content category_name ⟨file, [2, 1], title⟩ header idx =
      joinNl
        ([title,
          "Version: 2025-11-11 (Split from main file)",
          "Purpose: RAG file for LangChain embeddings - " ++
            pyUpper category_name ++ " category",
          "Format: Ingredient → Substitute mapping with regional alternatives and diet-type considerations",
          "Usage: Query by ingredient name, cooking method, or diet restriction to retrieve PCOS-friendly alternatives",
          "",
          eq80] ++
         ["", t2] ++ ["", t1] ++
         ["", eq80, "END OF " ++ title, eq80]) := by
  unfold create_file_content
  simp [sectionParts, h1, h2]

/-- Witness for C4: an index holding section 1 (`"Foo"`, first in document
order) and section 2 (`"Bar"`): the assembled output places `"Bar"` first. -/
theorem C4_declared_order_witness :
    lookupD [(1, "Foo"), (2, "Bar")] 1 = some "Foo" ∧
      lookupD [(1, "Foo"), (2, "Bar")] 2 = some "Bar" ∧
      create_file_content "keto" ⟨"f.txt", [2, 1], "T"⟩ "" [(1, "Foo"), (2, "Bar")] =
        joinNl
          (["T",
            "Version: 2025-11-11 (Split from main file)",
            "Purpose: RAG file for LangChain embeddings - " ++
              pyUpper "keto" ++ " category",
            "Format: Ingredient → Substitute mapping with regional alternatives and diet-type considerations",
            "Usage: Query by ingredient name, cooking method, or diet restriction to retrieve PCOS-friendly alternatives",
            "",
            eq80] ++
           ["", "Bar"] ++ ["", "Foo"] ++
           ["", eq80, "END OF " ++ "T", eq80]) :=
  ⟨by decide, by decide,
    C4_declared_order "keto" "f.txt" "T" "" [(1, "Foo"), (2, "Bar")] "Foo" "Bar"
      (by decide) (by decide)⟩

/-- C2 (evaluation at the failing input): assembling the `grains` category,
whose spec references sections 1 and 3, against an index holding only
section 1 produces exactly the output of a spec referencing only section 1:
the missing section is skipped silently (`if section_num in sections`) and
no error of any kind is signalled. -/
theorem C2_missing_section_eval :
    create_file_content "grains"
        ⟨"pcos_ingredient_substitutes_grains.txt", [1, 3],
         "PCOS-FRIENDLY INGREDIENT SUBSTITUTES - GRAINS & SWEETENERS"⟩ ""
        [(1, "## SECTION 1:\nfoo")] =
      create_file_content "grains"
        ⟨"pcos_ingredient_substitutes_grains.txt", [1],
         "PCOS-FRIENDLY INGREDIENT SUBSTITUTES - GRAINS & SWEETENERS"⟩ ""
        [(1, "## SECTION 1:\nfoo")] := by
  rfl

/-- C9: the whole split output (file name and content for each of the six
categories) is a pure function of the input document: two runs over equal
inputs produce byte-identical outputs. The embedding shows the output is
built from the input and fixed strings only (the version line is the constant
`"Version: 2025-11-11 (Split from main file)"`, not a timestamp), and
`SECTION_MAPPING` is iterated in its fixed source order. -/
theorem C9_deterministic (c1 c2 : String) (h : c1 = c2) :
    runSplit c1 = runSplit c2 := by rw [h]

/-- Witness for C9 at a concrete document. -/
theorem C9_deterministic_witness :
    "## SECTION 1:\nx" = "## SECTION 1:\nx" ∧
      runSplit "## SECTION 1:\nx" = runSplit "## SECTION 1:\nx" :=
  ⟨rfl, C9_deterministic "## SECTION 1:\nx" "## SECTION 1:\nx" rfl⟩

/-! Claim theorems for `restructure_supplements.py`. -/

/-- C8: the normalizer maps the line `"CATEGORY I: Basics"` to
`"## CATEGORY I - Basics"` (rule 2 rewrites it; no other rule touches the
result). -/
theorem C8_category_example :
    restructureContent "CATEGORY I: Basics" = "## CATEGORY I - Basics" := by
  decide

/-- C5 (evaluation at the failing input): the normalizer is not idempotent.
On `"AB\n---\nY:"` the first pass only deletes the dash rule line (rule 4
fails because the `-` line interrupts the `[A-Z\s]` run), but the second
pass sees `"AB\n\nY:"`, where `[A-Z\s]` matches across the blank line, and
rewrites it to `"#### AB\n\nY"`. -/
theorem C5_not_idempotent_eval :
    restructureContent (restructureContent "AB\n---\nY:") ≠
        restructureContent "AB\n---\nY:" ∧
      restructureContent "AB\n---\nY:" = "AB\n\nY:" ∧
      restructureContent (restructureContent "AB\n---\nY:") = "#### AB\n\nY" :=
  ⟨by decide, by decide, by decide⟩

/-- C7, counterexample: horizontal-rule lines are emptied, not removed. On
`"a\n---\nb"` the normalizer returns `"a\n\nb"`: the dash line's content is
gone but the line itself survives as a blank line (the output still has
three lines), so the output differs from the `"a\nb"` that deletion of the
line would produce. -/
theorem C7_counterexample :
    restructureContent "a\n---\nb" = "a\n\nb" ∧
      splitNl (restructureContent "a\n---\nb") = ["a", "", "b"] ∧
      restructureContent "a\n---\nb" ≠ "a\nb" :=
  ⟨by decide, by decide, by decide⟩

/-! Machinery for C7: on line-structured input, each horizontal-rule rule
acts linewise, emptying exactly the lines it recognizes. -/

theorem takeWhile_append_all (p : Char → Bool) (l r : List Char)
    (h : ∀ c ∈ l, p c = true) :
    (l ++ r).takeWhile p = l ++ r.takeWhile p := by
  induction l with
  | nil => rfl
  | cons c t ih =>
    have hc : p c = true := h c (List.mem_cons_self c t)
    simp [List.takeWhile_cons, hc,
      ih fun x hx => h x (List.mem_cons_of_mem c hx)]

theorem takeWhile_append_stop (p : Char → Bool) (l r : List Char)
    (h : l.dropWhile p ≠ []) :
    (l ++ r).takeWhile p = l.takeWhile p := by
  induction l with
  | nil => simp [List.dropWhile] at h
  | cons c t ih =>
    cases hc : p c with
    | false => simp [List.takeWhile_cons, hc]
    | true =>
      have ht : t.dropWhile p ≠ [] := by
        simpa [List.dropWhile_cons, hc] using h
      simp [List.takeWhile_cons, hc, ih ht]

theorem dropWhile_head_not (p : Char → Bool) (l : List Char) (c : Char)
    (t : List Char) (h : l.dropWhile p = c :: t) : p c = false := by
  induction l with
  | nil => simp [List.dropWhile] at h
  | cons d ds ih =>
    cases hd : p d with
    | false =>
      simp only [List.dropWhile_cons, hd, if_false] at h
      injection h with h1 _
      rw [← h1]
      exact hd
    | true =>
      simp only [List.dropWhile_cons, hd, if_true] at h
      exact ih h

theorem attHr_not_ls (ch : Char) (n : Nat) (s : List Char) :
    attHr ch n false s = none := rfl

theorem attHr_match (ch : Char) (n : Nat) (l tail : List Char)
    (hall : ∀ c ∈ l, (c == ch) = true) (hlen : n ≤ l.length)
    (htail : tail = [] ∨ ∃ J, tail = '\n' :: J) (hch : ('\n' == ch) = false) :
    attHr ch n true (l ++ tail) = some ([], false, tail) := by
  have hrun : (l ++ tail).takeWhile (fun c => c == ch) = l := by
    rw [takeWhile_append_all _ _ _ hall]
    rcases htail with rfl | ⟨J, rfl⟩
    · simp
    · simp [List.takeWhile_cons, hch]
  simp only [attHr, if_true, hrun, List.drop_left]
  rw [if_neg (by omega)]
  rcases htail with rfl | ⟨J, rfl⟩ <;> rfl

theorem attHr_nomatch (ch : Char) (n : Nat) (l tail : List Char)
    (hnl : ∀ c ∈ l, c ≠ '\n')
    (htail : tail = [] ∨ ∃ J, tail = '\n' :: J) (hch : ('\n' == ch) = false)
    (hno : (decide (n ≤ l.length) && l.all fun c => c == ch) = false) :
    attHr ch n true (l ++ tail) = none := by
  by_cases hall : ∀ c ∈ l, (c == ch) = true
  · have hlt : l.length < n := by
      have ha : (l.all fun c => c == ch) = true := List.all_eq_true.mpr hall
      rw [ha, Bool.and_true] at hno
      have := of_decide_eq_false hno
      omega
    have hrun : (l ++ tail).takeWhile (fun c => c == ch) = l := by
      rw [takeWhile_append_all _ _ _ hall]
      rcases htail with rfl | ⟨J, rfl⟩
      · simp
      · simp [List.takeWhile_cons, hch]
    simp [attHr, hrun, hlt]
  · have hd : l.dropWhile (fun c => c == ch) ≠ [] := by
      intro hcon
      rw [List.dropWhile_eq_nil_iff] at hcon
      exact hall hcon
    cases hdw : l.dropWhile (fun c => c == ch) with
    | nil => exact absurd hdw hd
    | cons d dt =>
      have hpd : (d == ch) = false := dropWhile_head_not _ l d dt hdw
      have hdmem : d ∈ l := by
        have hmem : d ∈ l.takeWhile (fun c => c == ch) ++
            l.dropWhile (fun c => c == ch) := by
          rw [hdw]
          exact List.mem_append_right _ (List.mem_cons_self d dt)
        rwa [List.takeWhile_append_dropWhile] at hmem
      have hdne : d ≠ '\n' := hnl d hdmem
      have hrun : (l ++ tail).takeWhile (fun c => c == ch) =
          l.takeWhile (fun c => c == ch) := takeWhile_append_stop _ l tail hd
      have hdrop : (l ++ tail).drop ((l.takeWhile fun c => c == ch).length) =
          d :: (dt ++ tail) := by
        conv_lhs =>
          rw [show l ++ tail =
            (l.takeWhile fun c => c == ch) ++ ((l.dropWhile fun c => c == ch) ++ tail)
            from by rw [← List.append_assoc, List.takeWhile_append_dropWhile]]
        rw [List.drop_left, hdw]
        rfl
      simp only [attHr, if_true, hrun, hdrop]
      by_cases hlt : (l.takeWhile fun c => c == ch).length < n
      · rw [if_pos hlt]
      · rw [if_neg hlt]
        split
        · rename_i heq
          exact absurd heq (by simp)
        · rename_i r heq
          injection heq with h1 _
          exact absurd h1 hdne
        · rfl

theorem scanSub_nil
    (att : Bool → List Char → Option (List Char × Bool × List Char))
    (f : Nat) (ls : Bool) : scanSub att f ls [] = [] := by
  cases f <;> rfl

theorem scanSub_cons_none
    (att : Bool → List Char → Option (List Char × Bool × List Char))
    (f : Nat) (ls : Bool) (c : Char) (cs : List Char)
    (h : att ls (c :: cs) = none) :
    scanSub att (f + 1) ls (c :: cs) = c :: scanSub att f (c == '\n') cs := by
  simp [scanSub, h]

theorem scanSub_cons_some
    (att : Bool → List Char → Option (List Char × Bool × List Char))
    (f : Nat) (ls ls2 : Bool) (c : Char) (cs rep rest : List Char)
    (h : att ls (c :: cs) = some (rep, ls2, rest)) :
    scanSub att (f + 1) ls (c :: cs) = rep ++ scanSub att f ls2 rest := by
  simp [scanSub, h]

theorem scanSub_copy_line (ch : Char) (n : Nat) (cs : List Char)
    (hnl : ∀ c ∈ cs, c ≠ '\n') :
    ∀ (g : Nat) (rest : List Char),
      scanSub (attHr ch n) (cs.length + g) false (cs ++ rest) =
        cs ++ scanSub (attHr ch n) g false rest := by
  induction cs with
  | nil => intro g rest; simp
  | cons c t ih =>
    intro g rest
    have hf : (c :: t).length + g = (t.length + g) + 1 := by
      simp [List.length_cons]; omega
    rw [hf, show (c :: t) ++ rest = c :: (t ++ rest) from rfl,
      scanSub_cons_none _ _ _ _ _ (attHr_not_ls ch n _)]
    have hc : (c == '\n') = false :=
      beq_eq_false_iff_ne.mpr (hnl c (List.mem_cons_self c t))
    rw [hc, ih (fun x hx => hnl x (List.mem_cons_of_mem c hx)) g rest]
    exact (List.cons_append c t _).symm

theorem hr_scan_lines (ch : Char) (n : Nat) (hch : ('\n' == ch) = false)
    (hn : 1 ≤ n) :
    ∀ lines : List (List Char), (∀ l ∈ lines, ∀ c ∈ l, c ≠ '\n') →
      ∀ g : Nat,
      scanSub (attHr ch n) ((charJoin lines).length + g) true (charJoin lines) =
        charJoin (lines.map fun l =>
          if decide (n ≤ l.length) && l.all (fun c => c == ch) then [] else l) := by
  intro lines
  induction lines with
  | nil => intro _ g; simp [charJoin, scanSub_nil]
  | cons l rest ih =>
    intro hnl g
    have hl : ∀ c ∈ l, c ≠ '\n' := hnl l (List.mem_cons_self l rest)
    have hrest : ∀ x ∈ rest, ∀ c ∈ x, c ≠ '\n' :=
      fun x hx => hnl x (List.mem_cons_of_mem l hx)
    cases rest with
    | nil =>
      cases hcond : (decide (n ≤ l.length) && l.all fun c => c == ch) with
      | true =>
        have hcond2 := hcond
        simp only [Bool.and_eq_true, decide_eq_true_eq, List.all_eq_true] at hcond2
        cases l with
        | nil =>
          exfalso
          have := hcond2.1
          simp at this
          omega
        | cons c t =>
          have hatt : attHr ch n true ((c :: t) ++ []) = some ([], false, []) :=
            attHr_match ch n (c :: t) [] hcond2.2 hcond2.1 (Or.inl rfl) hch
          rw [List.append_nil] at hatt
          rw [show charJoin [c :: t] = c :: t from rfl]
          have hf : (c :: t).length + g = (t.length + g) + 1 := by
            simp only [List.length_cons]
            omega
          rw [hf, scanSub_cons_some _ _ _ _ _ _ _ _ hatt]
          rw [scanSub_nil]
          simp only [List.map_cons, List.map_nil]
          rw [if_pos hcond]
          rfl
      | false =>
        cases l with
        | nil => simp [charJoin, scanSub_nil, hcond]
        | cons c t =>
          have hatt : attHr ch n true ((c :: t) ++ []) = none :=
            attHr_nomatch ch n (c :: t) [] hl (Or.inl rfl) hch hcond
          rw [List.append_nil] at hatt
          rw [show charJoin [c :: t] = c :: t from rfl]
          have hf : (c :: t).length + g = (t.length + g) + 1 := by
            simp only [List.length_cons]
            omega
          rw [hf, scanSub_cons_none _ _ _ _ _ hatt]
          have hc : (c == '\n') = false :=
            beq_eq_false_iff_ne.mpr (hl c (List.mem_cons_self c t))
          rw [hc]
          have hcopy := scanSub_copy_line ch n t
            (fun x hx => hl x (List.mem_cons_of_mem c hx)) g []
          rw [List.append_nil] at hcopy
          rw [hcopy, scanSub_nil]
          have hneg : ¬((decide (n ≤ (c :: t).length) &&
              (c :: t).all fun c => c == ch) = true) := fun hx => by
            rw [hx] at hcond
            exact Bool.noConfusion hcond
          simp only [List.map_cons, List.map_nil]
          rw [if_neg hneg]
          simp [charJoin]
    | cons r2 rs =>
      rw [show charJoin (l :: r2 :: rs) = l ++ '\n' :: charJoin (r2 :: rs) from rfl]
      cases hcond : (decide (n ≤ l.length) && l.all fun c => c == ch) with
      | true =>
        have hcond2 := hcond
        simp only [Bool.and_eq_true, decide_eq_true_eq, List.all_eq_true] at hcond2
        cases l with
        | nil =>
          exfalso
          have := hcond2.1
          simp at this
          omega
        | cons c t =>
          have hatt : attHr ch n true ((c :: t) ++ '\n' :: charJoin (r2 :: rs)) =
              some ([], false, '\n' :: charJoin (r2 :: rs)) :=
            attHr_match ch n (c :: t) _ hcond2.2 hcond2.1 (Or.inr ⟨_, rfl⟩) hch
          rw [show (c :: t) ++ '\n' :: charJoin (r2 :: rs) =
              c :: (t ++ '\n' :: charJoin (r2 :: rs)) from rfl] at hatt ⊢
          have hflen : (c :: (t ++ '\n' :: charJoin (r2 :: rs))).length + g =
              ((t.length + (charJoin (r2 :: rs)).length + g) + 1) + 1 := by
            simp only [List.length_cons, List.length_append]
            omega
          rw [hflen, scanSub_cons_some _ _ _ _ _ _ _ _ hatt]
          rw [scanSub_cons_none _ _ _ _ _ (attHr_not_ls ch n _)]
          rw [show ('\n' == '\n') = true from rfl]
          have hlen4 : t.length + (charJoin (r2 :: rs)).length + g =
              (charJoin (r2 :: rs)).length + (t.length + g) := by omega
          rw [hlen4, ih hrest (t.length + g)]
          simp only [List.map_cons]
          rw [if_pos hcond]
          rfl
      | false =>
        cases l with
        | nil =>
          have hatt : attHr ch n true (([] : List Char) ++ '\n' :: charJoin (r2 :: rs)) =
              none :=
            attHr_nomatch ch n [] _ (by simp) (Or.inr ⟨_, rfl⟩) hch
              (by
                simp only [List.length_nil, List.all_nil, Bool.and_true]
                exact decide_eq_false (by omega))
          rw [List.nil_append] at hatt
          rw [show ([] : List Char) ++ '\n' :: charJoin (r2 :: rs) =
              '\n' :: charJoin (r2 :: rs) from rfl]
          have hflen : ('\n' :: charJoin (r2 :: rs)).length + g =
              ((charJoin (r2 :: rs)).length + g) + 1 := by
            simp only [List.length_cons]
            omega
          rw [hflen, scanSub_cons_none _ _ _ _ _ hatt]
          rw [show ('\n' == '\n') = true from rfl]
          rw [ih hrest g]
          simp only [List.map_cons, ite_self]
          rfl
        | cons c t =>
          have hatt : attHr ch n true ((c :: t) ++ '\n' :: charJoin (r2 :: rs)) =
              none :=
            attHr_nomatch ch n (c :: t) _ hl (Or.inr ⟨_, rfl⟩) hch hcond
          rw [show (c :: t) ++ '\n' :: charJoin (r2 :: rs) =
              c :: (t ++ '\n' :: charJoin (r2 :: rs)) from rfl] at hatt ⊢
          have hflen : (c :: (t ++ '\n' :: charJoin (r2 :: rs))).length + g =
              ((t ++ '\n' :: charJoin (r2 :: rs)).length + g) + 1 := by
            simp only [List.length_cons]
            omega
          rw [hflen, scanSub_cons_none _ _ _ _ _ hatt]
          have hc : (c == '\n') = false :=
            beq_eq_false_iff_ne.mpr (hl c (List.mem_cons_self c t))
          rw [hc]
          have hlen2 : (t ++ '\n' :: charJoin (r2 :: rs)).length + g =
              t.length + (((charJoin (r2 :: rs)).length + g) + 1) := by
            simp [List.length_append, List.length_cons]
            omega
          rw [hlen2,
            scanSub_copy_line ch n t (fun x hx => hl x (List.mem_cons_of_mem c hx))]
          rw [scanSub_cons_none _ _ _ _ _ (attHr_not_ls ch n _)]
          rw [show ('\n' == '\n') = true from rfl]
          rw [ih hrest g]
          have hneg : ¬((decide (n ≤ (c :: t).length) &&
              (c :: t).all fun c => c == ch) = true) := fun hx => by
            rw [hx] at hcond
            exact Bool.noConfusion hcond
          simp only [List.map_cons]
          rw [if_neg hneg]
          simp [charJoin]

theorem nonl_map_ite (cond : List Char → Bool) (lines : List (List Char))
    (hnl : ∀ l ∈ lines, ∀ c ∈ l, c ≠ '\n') :
    ∀ l ∈ lines.map fun l => if cond l then [] else l, ∀ c ∈ l, c ≠ '\n' := by
  intro l' hl' c hc
  rcases List.mem_map.mp hl' with ⟨x, hx, rfl⟩
  by_cases h : cond x = true
  · rw [if_pos h] at hc
    exact absurd hc (List.not_mem_nil c)
  · rw [if_neg h] at hc
    exact hnl x hx c hc

/-- C7 (amended): on line-structured input, the three horizontal-rule rules
of the normalizer act linewise, and every line consisting solely of one of
the three horizontal-rule character classes is emptied: its content is
replaced by the empty line while every other line is kept verbatim. In
particular the output has exactly one line per input line, so the
horizontal-rule line is not removed (a later rule may still collapse runs of
blank lines). -/
theorem C7_hr_lines_amended (lines : List (List Char))
    (hnl : ∀ l ∈ lines, ∀ c ∈ l, c ≠ '\n') :
    subRule6c (subRule6b (subRule6a (charJoin lines))) =
      charJoin (lines.map fun l => if hrLine l then [] else l) := by
  have ha : subRule6a (charJoin lines) =
      charJoin (lines.map fun l =>
        if decide (3 ≤ l.length) && l.all (fun c => c == '-') then [] else l) :=
    hr_scan_lines '-' 3 (by decide) (by omega) lines hnl 0
  have hnl1 := nonl_map_ite
    (fun l => decide (3 ≤ l.length) && l.all fun c => c == '-') lines hnl
  have hb : subRule6b (charJoin (lines.map fun l =>
      if decide (3 ≤ l.length) && l.all (fun c => c == '-') then [] else l)) =
      charJoin ((lines.map fun l =>
        if decide (3 ≤ l.length) && l.all (fun c => c == '-') then [] else l).map
        fun l => if decide (1 ≤ l.length) && l.all (fun c => c == '═') then [] else l) :=
    hr_scan_lines '═' 1 (by decide) (by omega) _ hnl1 0
  have hnl2 := nonl_map_ite
    (fun l => decide (1 ≤ l.length) && l.all fun c => c == '═') _ hnl1
  have hc6 : subRule6c (charJoin ((lines.map fun l =>
      if decide (3 ≤ l.length) && l.all (fun c => c == '-') then [] else l).map
      fun l => if decide (1 ≤ l.length) && l.all (fun c => c == '═') then [] else l)) =
      charJoin (((lines.map fun l =>
        if decide (3 ≤ l.length) && l.all (fun c => c == '-') then [] else l).map
        fun l => if decide (1 ≤ l.length) && l.all (fun c => c == '═') then [] else l).map
        fun l => if decide (1 ≤ l.length) && l.all (fun c => c == '─') then [] else l) :=
    hr_scan_lines '─' 1 (by decide) (by omega) _ hnl2 0
  rw [ha, hb, hc6]
  congr 1
  rw [List.map_map, List.map_map]
  apply List.map_congr_left
  intro x _
  simp only [Function.comp]
  by_cases h1 : (decide (3 ≤ x.length) && x.all fun c => c == '-') = true
  · simp only [if_pos h1]
    have hx : hrLine x = true := by
      unfold hrLine
      rw [h1]
      rfl
    rw [if_pos hx]
    simp only [ite_self]
  · simp only [if_neg h1]
    by_cases h2 : (decide (1 ≤ x.length) && x.all fun c => c == '═') = true
    · simp only [if_pos h2]
      have hx : hrLine x = true := by
        unfold hrLine
        rw [h2]
        simp
      rw [if_pos hx]
      simp only [ite_self]
    · simp only [if_neg h2]
      by_cases h3 : (decide (1 ≤ x.length) && x.all fun c => c == '─') = true
      · simp only [if_pos h3]
        have hx : hrLine x = true := by
          unfold hrLine
          rw [h3]
          simp
        rw [if_pos hx]
      · simp only [if_neg h3]
        have hx : ¬(hrLine x = true) := by
          unfold hrLine
          intro hcon
          rcases Bool.or_eq_true_iff.mp hcon with hcon2 | hcon3
          · rcases Bool.or_eq_true_iff.mp hcon2 with hA | hB
            · exact h1 hA
            · exact h2 hB
          · exact h3 hcon3
        rw [if_neg hx]

/-- Witness for C7 (amended) at a three-line input whose middle line is a
dash rule: that line is emptied in place. -/
theorem C7_hr_lines_amended_witness :
    (∀ l ∈ [['a'], ['-', '-', '-'], ['b']], ∀ c ∈ l, c ≠ '\n') ∧
      subRule6c (subRule6b (subRule6a (charJoin [['a'], ['-', '-', '-'], ['b']]))) =
        charJoin ([['a'], ['-', '-', '-'], ['b']].map
          fun l => if hrLine l then [] else l) :=
  ⟨by decide, C7_hr_lines_amended [['a'], ['-', '-', '-'], ['b']] (by decide)⟩

end Sakhee
